import Mathlib

/-!
Verification of the voice-based medicine selector pipeline
(`src/voice_app.py`): a shallow embedding of its text normalizer,
fuzzy candidate matcher, resolution step, voice-activity gate,
spectral denoiser, transcription retry, and purchase-log save,
together with proofs of the specified properties.

Strings are modelled at the `List Char` level; scores are modelled as
rationals on the 0-100 scale; PCM byte buffers are lists of byte
values (`Nat`).
-/

namespace VoiceApp

/-! ## Character classes

`clean_recognizer_text` (voice_app.py lines 140-144) uses the regex
classes `[^a-z0-9\s\-]+` and `\s+`.  `\s` is modelled as the ASCII
whitespace characters matched by Python's `\s`. -/

/-- The characters matched by the regex class `\s` (ASCII range). -/
def isWsChar (c : Char) : Bool :=
  c == ' ' || c == '\t' || c == '\n' || c == '\x0d' || c == '\x0b' || c == '\x0c'

/-- Lowercase ASCII letter. -/
def isLowerAlpha (c : Char) : Bool := 'a' ≤ c && c ≤ 'z'

/-- ASCII digit. -/
def isDigitChar (c : Char) : Bool := '0' ≤ c && c ≤ '9'

/-- A character that survives normalization as (part of) a token:
`[a-z0-9\-]`. -/
def keptChar (c : Char) : Bool := isLowerAlpha c || isDigitChar c || c == '-'

/-- The regex class `[a-z0-9\s\-]` of `re.sub(r"[^a-z0-9\s\-]+", " ", t)`. -/
def inSubClass (c : Char) : Bool := keptChar c || isWsChar c

/-- The character class `[a-z0-9\- ]` named by the specification
("lowercase, ASCII letters/digits/hyphen/space only"). -/
def allowedSpecChar (c : Char) : Bool := keptChar c || c == ' '

/-- The basic latin upper/lowercase letter pairs. -/
def upperLower : List (Char × Char) :=
  [('A', 'a'), ('B', 'b'), ('C', 'c'), ('D', 'd'), ('E', 'e'), ('F', 'f'),
   ('G', 'g'), ('H', 'h'), ('I', 'i'), ('J', 'j'), ('K', 'k'), ('L', 'l'),
   ('M', 'm'), ('N', 'n'), ('O', 'o'), ('P', 'p'), ('Q', 'q'), ('R', 'r'),
   ('S', 's'), ('T', 't'), ('U', 'u'), ('V', 'v'), ('W', 'w'), ('X', 'x'),
   ('Y', 'y'), ('Z', 'z')]

/-- Python's `str.lower()` on the basic latin letters, written as an
explicit lookup table (all other characters are unchanged). -/
def lowerChar (c : Char) : Char :=
  match upperLower.find? (fun p => p.1 == c) with
  | some p => p.2
  | none => c

/-! ## Text normalizer (`clean_recognizer_text`, lines 140-144)

```
def clean_recognizer_text(t: str) -> str:
    t = t.strip().lower()
    t = re.sub(r"[^a-z0-9\s\-]+", " ", t)
    t = re.sub(r"\s+", " ", t).strip()
    return t
```
-/

/-- Python `str.strip()` from the left: drop leading whitespace. -/
def lstripText (l : List Char) : List Char := l.dropWhile (fun c => isWsChar c)

/-- Python `str.strip()` from the right: drop trailing whitespace. -/
def rstripText (l : List Char) : List Char :=
  ((l.reverse).dropWhile (fun c => isWsChar c)).reverse

/-- Python `str.strip()`: drop leading and trailing whitespace. -/
def stripText (l : List Char) : List Char := rstripText (lstripText l)

/-- `re.sub(r"[^a-z0-9\s\-]+", " ", t)`: replace each maximal run of
characters outside `[a-z0-9\s\-]` by a single space. -/
def subDisallowed : List Char → List Char
  | [] => []
  | c :: cs =>
    if inSubClass c then c :: subDisallowed cs
    else ' ' :: subDisallowed (cs.dropWhile (fun d => !inSubClass d))
termination_by l => l.length
decreasing_by
  · simp only [List.length_cons]; omega
  · simp only [List.length_cons]
    exact Nat.lt_succ_of_le (List.dropWhile_sublist _).length_le

/-- `re.sub(r"\s+", " ", t)`: replace each maximal whitespace run by a
single space. -/
def collapseWs : List Char → List Char
  | [] => []
  | c :: cs =>
    if isWsChar c then ' ' :: collapseWs (cs.dropWhile (fun d => isWsChar d))
    else c :: collapseWs cs
termination_by l => l.length
decreasing_by
  · simp only [List.length_cons]
    exact Nat.lt_succ_of_le (List.dropWhile_sublist _).length_le
  · simp only [List.length_cons]; omega

/-- `clean_recognizer_text` at the `List Char` level. -/
def cleanTextL (t : List Char) : List Char :=
  let t1 := (stripText t).map lowerChar
  let t2 := subDisallowed t1
  stripText (collapseWs t2)

/-- `clean_recognizer_text` (voice_app.py lines 140-144). -/
def clean_recognizer_text (t : String) : String := String.mk (cleanTextL t.data)

/-- Proof-side normal form: replace each maximal run of characters that
are not in `[a-z0-9\-]` by a single space. -/
def canonText : List Char → List Char
  | [] => []
  | c :: cs =>
    if keptChar c then c :: canonText cs
    else ' ' :: canonText (cs.dropWhile (fun d => !keptChar d))
termination_by l => l.length
decreasing_by
  · simp only [List.length_cons]; omega
  · simp only [List.length_cons]
    exact Nat.lt_succ_of_le (List.dropWhile_sublist _).length_le

/-- The specification's description of the normalizer, followed to the
letter: "lowercase; replace every character outside `[a-z0-9\- ]` with a
space; collapse consecutive whitespace to one space; trim
leading/trailing whitespace." -/
def spec_normalize (t : List Char) : List Char :=
  let lowered := t.map lowerChar
  let replaced := lowered.map (fun c => if allowedSpecChar c then c else ' ')
  stripText (collapseWs replaced)

/-- `spec_normalize` at the `String` level. -/
def spec_normalize_str (s : String) : String := String.mk (spec_normalize s.data)

/-! ## Candidate matcher (`fuzzy_candidates`, lines 146-156) and
`best_match` (lines 158-161)

The similarity scorer itself (rapidfuzz `fuzz.WRatio`, or the difflib
ratio fallback) is an external library; it is modelled as an abstract
`scorer : String → String → ℚ` parameter on the 0-100 scale.
`process.extract(q, choices, scorer=..., limit=topn)` returns the
`topn` best-scoring choices ranked by descending score, ties kept in
input order (stable). -/

/-- Python's `str.lower()` on a whole string. -/
def str_lower (s : String) : String := String.mk (s.data.map lowerChar)

/-- Stable insertion into a list ranked by descending score: the new
pair is placed before the first strictly lower score and after all
earlier pairs of equal or higher score. -/
def insertDesc (p : String × ℚ) : List (String × ℚ) → List (String × ℚ)
  | [] => [p]
  | q :: qs => if q.2 ≤ p.2 then p :: q :: qs else q :: insertDesc p qs

/-- Rank scored pairs by descending score, stably. -/
def rankDesc (l : List (String × ℚ)) : List (String × ℚ) := l.foldr insertDesc []

/-- Models `process.extract(q, choices, scorer=fuzz.WRatio, limit=topn)`:
score every choice, rank by descending score (ties stable in input
order), keep the best `limit`. -/
def process_extract (scorer : String → String → ℚ) (q : String)
    (choices : List String) (limit : Nat) : List (String × ℚ) :=
  (rankDesc (choices.map (fun c => (c, scorer q c)))).take limit

/-- `fuzzy_candidates` (lines 146-156).  Both the rapidfuzz branch and
the difflib fallback branch score every choice, rank descending and
keep `topn`; the branch taken only selects the `scorer`. -/
def fuzzy_candidates (scorer : String → String → ℚ) (q : String)
    (choices : List String) (topn : Nat) : List (String × ℚ) :=
  if q = "" ∨ choices = [] then []
  else process_extract scorer q choices topn

/-- `best_match` (lines 158-161).  Note the function's own default
threshold is `80.0`; the pipeline's call sites pass `78.0` explicitly. -/
def best_match (scorer : String → String → ℚ) (q : String)
    (choices : List String) (threshold : ℚ := 80) :
    Option String × List (String × ℚ) :=
  let cands := fuzzy_candidates scorer q choices 5
  let best :=
    match cands with
    | (c, s) :: _ => if threshold ≤ s then some c else none
    | [] => none
  (best, cands)

/-! ## Resolution step (lines 193-199 voice path, 211-214 typed path)

```
best, cands = best_match(spoken, ALL_MED_NAMES_LOWER, threshold=78.0)
ss.suggestions = [ALL_MED_NAMES[ALL_MED_NAMES_LOWER.index(c)] for c, _ in cands]
ss.medicine_name = ALL_MED_NAMES[ALL_MED_NAMES_LOWER.index(best)] if best else spoken
```
-/

/-- The resolution step shared by the voice and typed paths: match the
normalized query against the lowercased catalog names with threshold
`78.0`, map matched lowercase names back to their original-case keys
via `list.index`, and surface the ranked suggestions.  The first
component is `some key` when the query resolves and `none` when it stays
ambiguous (in which case the UI keeps the raw query text). -/
def resolve_query (scorer : String → String → ℚ) (all_names : List String)
    (q : String) : Option String × List String :=
  let lower := all_names.map str_lower
  let br := best_match scorer q lower 78
  let suggestions := br.2.map (fun c => all_names.getD (lower.indexOf c.1) "")
  (br.1.map (fun b => all_names.getD (lower.indexOf b) ""), suggestions)

/-! ## PCM buffers and the voice-activity gate
(`apply_vad_gating`, lines 99-126) -/

/-- A mono PCM clip: sample rate, bytes per sample, raw little-endian
byte data (`PCM` dataclass, lines 80-84). -/
structure PCM where
  rate : Nat
  width : Nat
  data : List Nat
deriving DecidableEq

/-- `[data[i:i+n] for i in range(0, len(data), n)]`: the slice starting
at each index produced by `range(0, len(data), n)` (there are
`⌈len/n⌉` of them; `n = 0` is a Python `ValueError` and yields `[]`). -/
def chunkFrames {α : Type} (n : Nat) (l : List α) : List (List α) :=
  (List.range' 0 ((l.length + n - 1) / n) n).map (fun i => (l.drop i).take n)

/-- Zero-pad the data to a whole number of frames (lines 108-110):
`if len(data) % bytes_per_frame: data += b"\x00" * pad`. -/
def padData (bytes_per_frame : Nat) (data : List Nat) : List Nat :=
  if data.length % bytes_per_frame = 0 then data
  else data ++ List.replicate (bytes_per_frame - data.length % bytes_per_frame) 0

/-- The gating loop (lines 113-124) with `HANG = 3`: a speech frame is
kept and resets the hangover counter to 3; a silence frame is kept
while the counter is positive (decrementing it) and dropped otherwise.
Generalized over the frame type. -/
def gateFrames {α : Type} (is_sp : α → Bool) : List α → Nat → List α
  | [], _ => []
  | fr :: rest, keep_count =>
    if is_sp fr then fr :: gateFrames is_sp rest 3
    else if 0 < keep_count then fr :: gateFrames is_sp rest (keep_count - 1)
    else gateFrames is_sp rest keep_count

/-- `apply_vad_gating` (lines 99-126).  The webrtcvad classifier is
external and is modelled as the abstract `is_speech` parameter (the
`aggressiveness` setting is curried into it); `hasVad` models the
`HAS_VAD` capability flag. -/
def apply_vad_gating (hasVad : Bool) (is_speech : List Nat → Nat → Bool)
    (pcm : PCM) (frame_ms : Nat) : PCM :=
  if !hasVad then pcm
  else
    let bytes_per_frame := pcm.rate * frame_ms / 1000 * pcm.width
    let data := padData bytes_per_frame pcm.data
    let frames := chunkFrames bytes_per_frame data
    let voiced := gateFrames (fun fr => is_speech fr pcm.rate) frames 0
    let out := if voiced = [] then pcm.data else voiced.flatten
    PCM.mk pcm.rate pcm.width out

/-! ## Float/PCM conversion and the spectral denoiser
(`pcm_bytes_to_np` lines 90-93, `np_to_pcm_bytes` lines 95-97,
`spectral_denoise` lines 128-138)

Floating-point amplitudes are modelled as exact rationals. -/

/-- Two little-endian bytes as a signed 16-bit integer
(`np.frombuffer(..., dtype=np.int16)`). -/
def int16OfPair (p : Nat × Nat) : Int :=
  let u := p.1 + 256 * p.2
  if u < 32768 then (u : Int) else (u : Int) - 65536

/-- Group a byte list into little-endian pairs (a trailing odd byte is
a numpy buffer-size error and cannot occur for 16-bit data). -/
def chunkPairs : List Nat → List (Nat × Nat)
  | lo :: hi :: rest => (lo, hi) :: chunkPairs rest
  | _ => []

/-- `pcm_bytes_to_np` (lines 90-93): int16 mono → amplitude in `[-1, 1]`
(divide by 32768). -/
def pcm_bytes_to_np (pcm : PCM) : List ℚ :=
  (chunkPairs pcm.data).map (fun p => (int16OfPair p : ℚ) / 32768)

/-- `np.clip(arr, -1.0, 1.0)` on one element. -/
def clipUnit (x : ℚ) : ℚ := max (-1) (min x 1)

/-- `astype(np.int16)`'s float-to-int conversion: truncation toward
zero. -/
def truncToInt (x : ℚ) : Int := if 0 ≤ x then ⌊x⌋ else ⌈x⌉

/-- `astype(np.int16)`'s wrap-around (two's-complement) semantics on an
out-of-range integer. -/
def int16Wrap (n : Int) : Int := (n + 32768) % 65536 - 32768

/-- One sample of `np_to_pcm_bytes`: clip to `[-1, 1]`, scale by 32767,
convert to int16. -/
def quantize_sample (x : ℚ) : Int := int16Wrap (truncToInt (clipUnit x * 32767))

/-- A signed 16-bit value as two little-endian bytes (`tobytes()`). -/
def int16LeBytes (n : Int) : List Nat :=
  let u := (n % 65536).toNat
  [u % 256, u / 256]

/-- `np_to_pcm_bytes` (lines 95-97):
`(np.clip(arr, -1.0, 1.0) * 32767.0).astype(np.int16).tobytes()`. -/
def np_to_pcm_bytes (arr : List ℚ) : List Nat :=
  arr.flatMap (fun x => int16LeBytes (quantize_sample x))

/-- `spectral_denoise` (lines 128-138).  The noisereduce
`reduce_noise(y=..., y_noise=..., sr=..., prop_decrease=...)` call is an
external collaborator modelled as the abstract `reduce` parameter;
`hasNR` models the `HAS_NR` capability flag. -/
def spectral_denoise (hasNR : Bool)
    (reduce : List ℚ → List ℚ → Nat → ℚ → List ℚ)
    (pcm : PCM) (prop_decrease : ℚ := 7/10) : PCM :=
  if !hasNR then pcm
  else
    let y := pcm_bytes_to_np pcm
    let n_samples := min y.length (pcm.rate / 2)
    let noise_clip := if 0 < n_samples then y.take n_samples else y
    let y_denoised := reduce y noise_clip pcm.rate prop_decrease
    PCM.mk pcm.rate pcm.width (np_to_pcm_bytes y_denoised)

/-! ## Transcription with one retry (lines 184-188)

```
try:
    spoken = recognizer.recognize_google(audio_clean, language="en-US")
except sr.UnknownValueError:
    spoken = recognizer.recognize_google(audio, language="en-US")
```
-/

/-- Outcome of one `recognize_google` call: a transcript, or
`sr.UnknownValueError`, or `sr.RequestError` (service unavailable). -/
inductive RecogOutcome where
  | ok (text : String)
  | unknownValue
  | requestError
deriving DecidableEq

/-- The retry step, instrumented with the list of audio buffers handed
to `recognize_google`, in call order: the denoised buffer first and,
only on `UnknownValueError`, the original buffer once.  Any other
outcome of the first call (success or `RequestError`) is returned
without a second call, and the second call's outcome is returned as is. -/
def recognize_with_retry {α : Type} (transcribe : α → RecogOutcome)
    (audio_clean audio : α) : RecogOutcome × List α :=
  match transcribe audio_clean with
  | .unknownValue => (transcribe audio, [audio_clean, audio])
  | r => (r, [audio_clean])

/-! ## Purchase log save (Submit handler, lines 244-265)

```
try:
    if os.path.exists(fp):
        with open(fp, ...) as f: all_data = json.load(f)
    else:
        all_data = []
except json.JSONDecodeError:
    all_data = []
all_data.append(entry)
with open(fp, "w", ...) as f: json.dump(all_data, f, ...)
```
-/

/-- A finalized selection record. -/
structure PurchaseEntry where
  medicine_name : String
  selected_variant : String
  quantity : Nat
  unit : String
deriving DecidableEq

/-- The states the `purchases.json` file can be in when Submit runs. -/
inductive PurchasesFile where
  | absent
  | malformed (raw : String)
  | wellFormed (records : List PurchaseEntry)

/-- The `try`/`except` load: a missing file and a `JSONDecodeError`
both yield `all_data = []`; a well-formed file yields its records. -/
def load_purchases : PurchasesFile → List PurchaseEntry
  | .absent => []
  | .malformed _ => []
  | .wellFormed rs => rs

/-- The Submit handler's file rewrite: append the new entry to whatever
was loaded and overwrite the file with the result. -/
def submit_save (fs : PurchasesFile) (entry : PurchaseEntry) :
    List PurchaseEntry :=
  load_purchases fs ++ [entry]

/-! # Theorems -/

/-! ## C4: candidate matcher contract -/

theorem length_insertDesc (p : String × ℚ) (l : List (String × ℚ)) :
    (insertDesc p l).length = l.length + 1 := by
  induction l with
  | nil => rfl
  | cons q qs ih =>
    unfold insertDesc
    split
    · simp
    · simp [ih]

theorem mem_insertDesc {x p : String × ℚ} {l : List (String × ℚ)}
    (h : x ∈ insertDesc p l) : x = p ∨ x ∈ l := by
  induction l with
  | nil => simpa [insertDesc] using h
  | cons q qs ih =>
    unfold insertDesc at h
    split at h
    · simpa using h
    · rcases List.mem_cons.mp h with h | h
      · exact Or.inr (List.mem_cons.mpr (Or.inl h))
      · rcases ih h with h | h
        · exact Or.inl h
        · exact Or.inr (List.mem_cons.mpr (Or.inr h))

theorem mem_rankDesc {x : String × ℚ} {l : List (String × ℚ)}
    (h : x ∈ rankDesc l) : x ∈ l := by
  induction l with
  | nil => simp [rankDesc] at h
  | cons a as ih =>
    have h' : x ∈ insertDesc a (rankDesc as) := h
    rcases mem_insertDesc h' with h | h
    · exact h ▸ List.mem_cons_self _ _
    · exact List.mem_cons.mpr (Or.inr (ih h))

theorem mem_fuzzy_candidates {scorer : String → String → ℚ} {q : String}
    {choices : List String} {topn : Nat} {p : String × ℚ}
    (h : p ∈ fuzzy_candidates scorer q choices topn) : p.1 ∈ choices := by
  unfold fuzzy_candidates at h
  split at h
  · simp at h
  · have h1 : p ∈ rankDesc (choices.map (fun c => (c, scorer q c))) :=
      (List.take_sublist _ _).subset h
    rcases List.mem_map.mp (mem_rankDesc h1) with ⟨c, hc, hp⟩
    rw [← hp]
    exact hc

/-- C4: for every query, choice list and topN, the candidate matcher
returns at most topN candidates, and returns the empty list whenever
the query is empty or the choice list is empty. -/
theorem fuzzy_candidates_contract :
    (∀ (scorer : String → String → ℚ) (q : String) (choices : List String)
        (topn : Nat), (fuzzy_candidates scorer q choices topn).length ≤ topn) ∧
    (∀ (scorer : String → String → ℚ) (choices : List String),
        fuzzy_candidates scorer "" choices 5 = []) ∧
    (∀ (scorer : String → String → ℚ) (q : String),
        fuzzy_candidates scorer q [] 5 = []) := by
  refine ⟨fun scorer q choices topn => ?_, fun scorer choices => ?_,
    fun scorer q => ?_⟩
  · unfold fuzzy_candidates
    split
    · simp
    · simp only [process_extract]
      exact List.length_take_le _ _
  · simp [fuzzy_candidates]
  · simp [fuzzy_candidates]

/-! ## C8: clamping before 16-bit quantization -/

/-- C8: each float amplitude is clamped to `[-1, 1]` before integer
quantization, so the quantized value lies in `[-32767, 32767]` (inside
the signed 16-bit range) and the int16 conversion's wrap-around is the
identity on it: no sample wraps. -/
theorem np_to_pcm_bytes_clips_no_wrap (x : ℚ) :
    -32767 ≤ truncToInt (clipUnit x * 32767) ∧
    truncToInt (clipUnit x * 32767) ≤ 32767 ∧
    quantize_sample x = truncToInt (clipUnit x * 32767) := by
  have hlo : -1 ≤ clipUnit x := le_max_left _ _
  have hhi : clipUnit x ≤ 1 := max_le (by norm_num) (min_le_right _ _)
  have hlo' : (-32767 : ℚ) ≤ clipUnit x * 32767 := by nlinarith
  have hhi' : clipUnit x * 32767 ≤ 32767 := by nlinarith
  have h1 : -32767 ≤ truncToInt (clipUnit x * 32767) := by
    unfold truncToInt
    split
    · rename_i h
      calc (-32767 : Int) ≤ 0 := by norm_num
        _ ≤ ⌊clipUnit x * 32767⌋ := Int.floor_nonneg.mpr h
    · calc (-32767 : Int) = ⌈((-32767 : Int) : ℚ)⌉ := (Int.ceil_intCast _).symm
        _ ≤ ⌈clipUnit x * 32767⌉ := Int.ceil_le_ceil (by push_cast; linarith)
  have h2 : truncToInt (clipUnit x * 32767) ≤ 32767 := by
    unfold truncToInt
    split
    · calc ⌊clipUnit x * 32767⌋ ≤ ⌊((32767 : Int) : ℚ)⌋ :=
            Int.floor_le_floor (by push_cast; linarith)
        _ = 32767 := Int.floor_intCast _
    · rename_i h
      push_neg at h
      calc ⌈clipUnit x * 32767⌉ ≤ ⌈((0 : Int) : ℚ)⌉ :=
            Int.ceil_le_ceil (by push_cast; linarith)
        _ = 0 := Int.ceil_intCast _
        _ ≤ 32767 := by norm_num
  refine ⟨h1, h2, ?_⟩
  unfold quantize_sample int16Wrap
  set n := truncToInt (clipUnit x * 32767) with hn
  have hmod : (n + 32768) % 65536 = n + 32768 :=
    Int.emod_eq_of_lt (by omega) (by omega)
  omega

/-! ## C9: one-shot transcription retry -/

/-- C9: the pipeline transcribes the denoised buffer first; only on
`UnknownValueError` does it retry, exactly once, on the original raw
buffer, returning that second outcome as is; any other first outcome is
returned after a single call.  At most two transcription calls happen. -/
theorem recognize_with_retry_policy {α : Type} (transcribe : α → RecogOutcome)
    (audio_clean audio : α) :
    (recognize_with_retry transcribe audio_clean audio).2.length ≤ 2 ∧
    (∀ s, transcribe audio_clean = .ok s →
      recognize_with_retry transcribe audio_clean audio = (.ok s, [audio_clean])) ∧
    (transcribe audio_clean = .unknownValue →
      recognize_with_retry transcribe audio_clean audio
        = (transcribe audio, [audio_clean, audio])) ∧
    (transcribe audio_clean = .requestError →
      recognize_with_retry transcribe audio_clean audio
        = (.requestError, [audio_clean])) := by
  unfold recognize_with_retry
  rcases h : transcribe audio_clean with s | _ | _ <;>
    simp [h]

/-- Witness for C9 at a concrete two-buffer scenario where the first
call fails with `UnknownValueError` and the retry succeeds. -/
theorem recognize_with_retry_policy_witness :
    recognize_with_retry
        (fun n : Nat => if n = 0 then .unknownValue else .ok "napa") 0 1
      = (.ok "napa", [0, 1]) := by
  have h := (recognize_with_retry_policy
    (fun n : Nat => if n = 0 then RecogOutcome.unknownValue
      else RecogOutcome.ok "napa") 0 1).2.2.1 rfl
  simpa using h

/-! ## C10: malformed purchase log is discarded on save -/

/-- C10: when `purchases.json` holds malformed JSON, Submit rewrites the
file with a list holding only the new entry — whatever was in the file
before is not preserved (contrast with the well-formed case, which
appends). -/
theorem submit_save_malformed_discards :
    (∀ (raw : String) (entry : PurchaseEntry),
        submit_save (.malformed raw) entry = [entry]) ∧
    (∀ (entry : PurchaseEntry), submit_save .absent entry = [entry]) ∧
    (∀ (records : List PurchaseEntry) (entry : PurchaseEntry),
        submit_save (.wellFormed records) entry = records ++ [entry]) := by
  exact ⟨fun _ _ => rfl, fun _ => rfl, fun _ _ => rfl⟩

/-! ## C5: VAD gate passes an all-silence buffer through unchanged -/

theorem gateFrames_nil_of_all_silence {α : Type} {is_sp : α → Bool}
    {l : List α} (h : ∀ fr ∈ l, is_sp fr = false) :
    gateFrames is_sp l 0 = [] := by
  induction l with
  | nil => rfl
  | cons fr rest ih =>
    have hf := h fr (List.mem_cons_self _ _)
    simp only [gateFrames, hf, Bool.false_eq_true, if_false, Nat.lt_irrefl,
      if_neg (lt_irrefl 0)]
    exact ih (fun x hx => h x (List.mem_cons_of_mem _ hx))

/-- C5: if the classifier marks no frame of the (padded, framed) buffer
as speech, the gate returns the original PCM buffer itself: same rate,
same width, same bytes, hence unchanged length. -/
theorem apply_vad_gating_no_speech (hasVad : Bool)
    (is_speech : List Nat → Nat → Bool) (pcm : PCM) (frame_ms : Nat)
    (h : ∀ fr ∈ chunkFrames (pcm.rate * frame_ms / 1000 * pcm.width)
        (padData (pcm.rate * frame_ms / 1000 * pcm.width) pcm.data),
      is_speech fr pcm.rate = false) :
    apply_vad_gating hasVad is_speech pcm frame_ms = pcm := by
  cases hasVad with
  | false => rfl
  | true =>
    unfold apply_vad_gating
    have hg : gateFrames (fun fr => is_speech fr pcm.rate)
        (chunkFrames (pcm.rate * frame_ms / 1000 * pcm.width)
          (padData (pcm.rate * frame_ms / 1000 * pcm.width) pcm.data)) 0 = [] :=
      gateFrames_nil_of_all_silence h
    simp only [Bool.not_true, Bool.false_eq_true, if_false, hg, if_pos rfl]
    cases pcm
    simp

/-- Witness for C5: a 3-byte buffer at 1000 Hz, 1-byte samples, 2 ms
frames (2-byte frames, padded to 4 bytes), with a classifier that never
reports speech. -/
theorem apply_vad_gating_no_speech_witness :
    apply_vad_gating true (fun _ _ => false) (PCM.mk 1000 1 [7, 8, 9]) 2
      = PCM.mk 1000 1 [7, 8, 9] :=
  apply_vad_gating_no_speech true (fun _ _ => false) (PCM.mk 1000 1 [7, 8, 9]) 2
    (by intro fr _; rfl)

/-! ## C7: spectral denoiser preserves rate, width and byte length -/

theorem chunkPairs_length (l : List Nat) : (chunkPairs l).length = l.length / 2 := by
  induction l using chunkPairs.induct with
  | case1 lo hi rest ih =>
    simp only [chunkPairs, List.length_cons, ih]
    omega
  | case2 l h =>
    match l, h with
    | [], _ => rfl
    | [a], _ => simp [chunkPairs]
    | a :: b :: rest, h => exact absurd rfl (h a b rest)

theorem np_to_pcm_bytes_length (arr : List ℚ) :
    (np_to_pcm_bytes arr).length = 2 * arr.length := by
  induction arr with
  | nil => rfl
  | cons x xs ih =>
    simp only [np_to_pcm_bytes] at ih ⊢
    rw [List.flatMap_cons, List.length_append, ih, List.length_cons]
    have h2 : (int16LeBytes (quantize_sample x)).length = 2 := rfl
    omega

/-- C7: for every PCM buffer (16-bit, so an even byte count) the
spectral denoiser's output keeps the input's sample rate, sample width
and byte length — both when the noise-reduction capability is present
(for any length-preserving reducer, which `noisereduce` contracts to
be) and when it is absent (pass-through). -/
theorem spectral_denoise_shape (hasNR : Bool)
    (reduce : List ℚ → List ℚ → Nat → ℚ → List ℚ) (pcm : PCM)
    (prop_decrease : ℚ)
    (hlen : ∀ y noise sr p, (reduce y noise sr p).length = y.length)
    (heven : pcm.data.length % 2 = 0) :
    (spectral_denoise hasNR reduce pcm prop_decrease).rate = pcm.rate ∧
    (spectral_denoise hasNR reduce pcm prop_decrease).width = pcm.width ∧
    (spectral_denoise hasNR reduce pcm prop_decrease).data.length
      = pcm.data.length := by
  cases hasNR with
  | false => exact ⟨rfl, rfl, rfl⟩
  | true =>
    refine ⟨rfl, rfl, ?_⟩
    show (np_to_pcm_bytes _).length = _
    rw [np_to_pcm_bytes_length, hlen]
    show 2 * (pcm_bytes_to_np pcm).length = _
    rw [pcm_bytes_to_np, List.length_map, chunkPairs_length]
    exact Nat.mul_div_cancel' (Nat.dvd_of_mod_eq_zero heven)

/-- Witness for C7: the identity reducer on a 4-byte 16 kHz buffer. -/
theorem spectral_denoise_shape_witness :
    (spectral_denoise true (fun y _ _ _ => y) (PCM.mk 16000 2 [0, 0, 255, 127])
        (7/10)).rate = 16000 ∧
    (spectral_denoise true (fun y _ _ _ => y) (PCM.mk 16000 2 [0, 0, 255, 127])
        (7/10)).width = 2 ∧
    (spectral_denoise true (fun y _ _ _ => y) (PCM.mk 16000 2 [0, 0, 255, 127])
        (7/10)).data.length = 4 :=
  spectral_denoise_shape true (fun y _ _ _ => y) (PCM.mk 16000 2 [0, 0, 255, 127])
    (7/10) (fun _ _ _ _ => rfl) rfl

/-! ## C6: hangover behavior of the VAD gate -/

theorem gateFrames_cons {α : Type} (is_sp : α → Bool) (fr : α) (rest : List α)
    (k : Nat) :
    gateFrames is_sp (fr :: rest) k =
      if is_sp fr then fr :: gateFrames is_sp rest 3
      else if 0 < k then fr :: gateFrames is_sp rest (k - 1)
      else gateFrames is_sp rest k := rfl

theorem gateFrames_sublist {α : Type} (is_sp : α → Bool) :
    ∀ (l : List α) (k : Nat), List.Sublist (gateFrames is_sp l k) l := by
  intro l
  induction l with
  | nil => intro k; exact List.Sublist.refl []
  | cons fr rest ih =>
    intro k
    rw [gateFrames_cons]
    split_ifs with h1 h2
    · exact List.Sublist.cons₂ fr (ih 3)
    · exact List.Sublist.cons₂ fr (ih (k - 1))
    · exact List.Sublist.cons fr (ih k)

theorem gateFrames_keeps_within_hangover {α : Type} (is_sp : α → Bool) :
    ∀ (ys : List α) (k : Nat), ys.length < k → k ≤ 3 →
    ∀ (b : α) (zs : List α), is_sp b = false →
    ∃ u v, gateFrames is_sp (ys ++ b :: zs) k = u ++ b :: v := by
  intro ys
  induction ys with
  | nil =>
    intro k hk _ b zs hb
    refine ⟨[], gateFrames is_sp zs (k - 1), ?_⟩
    simp only [List.nil_append]
    rw [gateFrames_cons, hb, if_neg (by simp), if_pos (by simpa using hk)]
  | cons y ys' ih =>
    intro k hk hk3 b zs hb
    simp only [List.length_cons] at hk
    cases hsp : is_sp y with
    | true =>
      obtain ⟨u, v, huv⟩ := ih 3 (by omega) (le_refl 3) b zs hb
      refine ⟨y :: u, v, ?_⟩
      simp only [List.cons_append]
      rw [gateFrames_cons, hsp, if_pos rfl, huv]
    | false =>
      obtain ⟨u, v, huv⟩ := ih (k - 1) (by omega) (by omega) b zs hb
      refine ⟨y :: u, v, ?_⟩
      simp only [List.cons_append]
      rw [gateFrames_cons, hsp, if_neg (by simp), if_pos (by omega), huv]

theorem gateFrames_retains_after_speech {α : Type} (is_sp : α → Bool) :
    ∀ (xs : List α) (k : Nat) (a : α) (ys : List α) (b : α) (zs : List α),
    is_sp a = true → is_sp b = false → ys.length ≤ 2 →
    ∃ u v, gateFrames is_sp (xs ++ a :: ys ++ b :: zs) k = u ++ b :: v := by
  intro xs
  induction xs with
  | nil =>
    intro k a ys b zs ha hb hys
    obtain ⟨u, v, huv⟩ :=
      gateFrames_keeps_within_hangover is_sp ys 3 (by omega) (le_refl 3) b zs hb
    refine ⟨a :: u, v, ?_⟩
    simp only [List.nil_append, List.cons_append]
    rw [gateFrames_cons, ha, if_pos rfl, huv]
  | cons x xs' ih =>
    intro k a ys b zs ha hb hys
    simp only [List.cons_append]
    cases hsp : is_sp x with
    | true =>
      obtain ⟨u, v, huv⟩ := ih 3 a ys b zs ha hb hys
      refine ⟨x :: u, v, ?_⟩
      rw [gateFrames_cons, hsp, if_pos rfl, huv]
      rfl
    | false =>
      by_cases hk : 0 < k
      · obtain ⟨u, v, huv⟩ := ih (k - 1) a ys b zs ha hb hys
        refine ⟨x :: u, v, ?_⟩
        rw [gateFrames_cons, hsp, if_neg (by simp), if_pos hk, huv]
        rfl
      · obtain ⟨u, v, huv⟩ := ih k a ys b zs ha hb hys
        refine ⟨u, v, ?_⟩
        rw [gateFrames_cons, hsp, if_neg (by simp), if_neg hk, huv]

theorem gateFrames_all_silence_take {α : Type} (is_sp : α → Bool) :
    ∀ (zs : List α) (k : Nat), (∀ z ∈ zs, is_sp z = false) →
    gateFrames is_sp zs k = zs.take k := by
  intro zs
  induction zs with
  | nil => intro k _; simp [gateFrames]
  | cons z zs' ih =>
    intro k hz
    have hz0 := hz z (List.mem_cons_self _ _)
    have hz' : ∀ x ∈ zs', is_sp x = false :=
      fun x hx => hz x (List.mem_cons_of_mem _ hx)
    cases k with
    | zero =>
      rw [gateFrames_cons, hz0, if_neg (by simp), if_neg (by omega), ih 0 hz',
        List.take_zero, List.take_zero]
    | succ m =>
      rw [gateFrames_cons, hz0, if_neg (by simp), if_pos (Nat.succ_pos m),
        Nat.add_sub_cancel, ih m hz', List.take_succ_cons]

theorem gateFrames_drop_leading_silence {α : Type} (is_sp : α → Bool) :
    ∀ (xs rest : List α), (∀ x ∈ xs, is_sp x = false) →
    gateFrames is_sp (xs ++ rest) 0 = gateFrames is_sp rest 0 := by
  intro xs
  induction xs with
  | nil => intro rest _; rfl
  | cons x xs' ih =>
    intro rest hx
    have hx0 := hx x (List.mem_cons_self _ _)
    simp only [List.cons_append]
    rw [gateFrames_cons, hx0, if_neg (by simp), if_neg (by omega)]
    exact ih rest (fun z hz => hx z (List.mem_cons_of_mem _ hz))

theorem gateFrames_ne_nil_of_speech {α : Type} (is_sp : α → Bool) :
    ∀ (l : List α) (k : Nat) (a : α), a ∈ l → is_sp a = true →
    gateFrames is_sp l k ≠ [] := by
  intro l
  induction l with
  | nil => intro k a ha _; simp at ha
  | cons fr rest ih =>
    intro k a ha hsp
    rw [gateFrames_cons]
    split_ifs with h1 h2
    · simp
    · simp
    · rcases List.mem_cons.mp ha with rfl | ha'
      · exact absurd hsp (by simpa using h1)
      · exact ih k a ha' hsp

/-- C6: when at least one frame is voiced, the gate applies a hangover
of 3 frames.  (1) Kept frames are a sublist of the input frames (original
order).  (2) Any silence frame at most 3 positions after a speech frame
is retained.  (3) A single voiced frame surrounded by silence yields
exactly that frame plus up to 3 trailing silence frames (length ≥ 1).
(4) With some voiced frame present, the gated buffer is exactly the
concatenation of the kept frames. -/
theorem vad_gate_hangover :
    (∀ (α : Type) (is_sp : α → Bool) (l : List α) (k : Nat),
        List.Sublist (gateFrames is_sp l k) l) ∧
    (∀ (α : Type) (is_sp : α → Bool) (xs : List α) (k : Nat) (a : α)
        (ys : List α) (b : α) (zs : List α),
        is_sp a = true → is_sp b = false → ys.length ≤ 2 →
        ∃ u v, gateFrames is_sp (xs ++ a :: ys ++ b :: zs) k = u ++ b :: v) ∧
    (∀ (α : Type) (is_sp : α → Bool) (xs : List α) (b : α) (zs : List α),
        is_sp b = true → (∀ x ∈ xs, is_sp x = false) →
        (∀ z ∈ zs, is_sp z = false) →
        gateFrames is_sp (xs ++ b :: zs) 0 = b :: zs.take 3) ∧
    (∀ (is_speech : List Nat → Nat → Bool) (pcm : PCM) (frame_ms : Nat),
        (∃ fr ∈ chunkFrames (pcm.rate * frame_ms / 1000 * pcm.width)
            (padData (pcm.rate * frame_ms / 1000 * pcm.width) pcm.data),
          is_speech fr pcm.rate = true) →
        (apply_vad_gating true is_speech pcm frame_ms).data
          = (gateFrames (fun fr => is_speech fr pcm.rate)
              (chunkFrames (pcm.rate * frame_ms / 1000 * pcm.width)
                (padData (pcm.rate * frame_ms / 1000 * pcm.width) pcm.data))
              0).flatten) := by
  refine ⟨fun α is_sp l k => gateFrames_sublist is_sp l k,
    fun α is_sp xs k a ys b zs => gateFrames_retains_after_speech is_sp xs k a ys b zs,
    fun α is_sp xs b zs hb hxs hzs => ?_, fun is_speech pcm frame_ms h => ?_⟩
  · rw [gateFrames_drop_leading_silence is_sp xs (b :: zs) hxs]
    unfold gateFrames
    rw [hb, if_pos rfl, gateFrames_all_silence_take is_sp zs 3 hzs]
  · obtain ⟨fr, hfr, hsp⟩ := h
    have hne : gateFrames (fun fr => is_speech fr pcm.rate)
        (chunkFrames (pcm.rate * frame_ms / 1000 * pcm.width)
          (padData (pcm.rate * frame_ms / 1000 * pcm.width) pcm.data)) 0 ≠ [] :=
      gateFrames_ne_nil_of_speech _ _ 0 fr hfr hsp
    unfold apply_vad_gating
    simp only [Bool.not_true, Bool.false_eq_true, if_false, if_neg hne]

/-- Witness for C6 on concrete frame lists: a silence frame two
positions after a voiced frame is retained; a lone voiced frame among
silence keeps itself plus 3 trailing silence frames; a concrete gated
buffer equals the concatenation of its kept frames. -/
theorem vad_gate_hangover_witness :
    (∃ u v, gateFrames (fun f : List Nat => f == [1])
        ([[0]] ++ [1] :: [[0]] ++ [0] :: [[0]]) 0 = u ++ [0] :: v) ∧
    gateFrames (fun f : List Nat => f == [1])
        ([[0], [0]] ++ [1] :: [[0], [0], [0], [0]]) 0
      = [1] :: [[0], [0], [0], [0]].take 3 ∧
    (apply_vad_gating true (fun fr _ => fr == [1]) (PCM.mk 1000 1 [0, 0, 1, 0, 0, 0]) 1).data
      = (gateFrames (fun fr => (fun fr _ => fr == [1]) fr (PCM.mk 1000 1 [0, 0, 1, 0, 0, 0]).rate)
          (chunkFrames ((PCM.mk 1000 1 [0, 0, 1, 0, 0, 0]).rate * 1 / 1000 * (PCM.mk 1000 1 [0, 0, 1, 0, 0, 0]).width)
            (padData ((PCM.mk 1000 1 [0, 0, 1, 0, 0, 0]).rate * 1 / 1000 * (PCM.mk 1000 1 [0, 0, 1, 0, 0, 0]).width)
              (PCM.mk 1000 1 [0, 0, 1, 0, 0, 0]).data))
          0).flatten :=
  ⟨vad_gate_hangover.2.1 (List Nat) (fun f => f == [1]) [[0]] 0 [1] [[0]] [0] [[0]]
      (by decide) (by decide) (by decide),
    vad_gate_hangover.2.2.1 (List Nat) (fun f => f == [1]) [[0], [0]] [1]
      [[0], [0], [0], [0]] (by decide) (by decide) (by decide),
    vad_gate_hangover.2.2.2 (fun fr _ => fr == [1]) (PCM.mk 1000 1 [0, 0, 1, 0, 0, 0]) 1
      ⟨[1], by decide, by decide⟩⟩

/-! ## C1: resolution step -/

theorem getD_indexOf_map (f : String → String) (names : List String)
    (b : String) (hb : b ∈ names.map f) :
    names.getD ((names.map f).indexOf b) "" ∈ names ∧
    f (names.getD ((names.map f).indexOf b) "") = b := by
  have hlt : (names.map f).indexOf b < (names.map f).length :=
    List.indexOf_lt_length.mpr hb
  have hlt' : (names.map f).indexOf b < names.length := by
    simpa using hlt
  have hgetD : names.getD ((names.map f).indexOf b) ""
      = names[(names.map f).indexOf b] := by
    rw [List.getD_eq_getElem?_getD, List.getElem?_eq_getElem hlt']
    rfl
  constructor
  · rw [hgetD]; exact List.getElem_mem hlt'
  · rw [hgetD]
    have : f names[(names.map f).indexOf b] = (names.map f)[(names.map f).indexOf b] :=
      (List.getElem_map f).symm
    rw [this, List.getElem_indexOf hlt]

theorem resolve_query_cases (scorer : String → String → ℚ)
    (names : List String) (q : String) :
    (fuzzy_candidates scorer q (names.map str_lower) 5 = [] ∧
      resolve_query scorer names q = (none, [])) ∨
    (∃ c s rest,
      fuzzy_candidates scorer q (names.map str_lower) 5 = (c, s) :: rest ∧
      resolve_query scorer names q =
        ((if (78 : ℚ) ≤ s then
            some (names.getD ((names.map str_lower).indexOf c) "") else none),
          ((c, s) :: rest).map
            (fun p => names.getD ((names.map str_lower).indexOf p.1) ""))) := by
  rcases hc : fuzzy_candidates scorer q (names.map str_lower) 5 with _ | ⟨⟨c, s⟩, rest⟩
  · left
    refine ⟨rfl, ?_⟩
    simp [resolve_query, best_match, hc]
  · right
    refine ⟨c, s, rest, rfl, ?_⟩
    simp only [resolve_query, best_match, hc]
    split_ifs with hs <;> simp

/-- C1 (amended): for a non-empty query and non-empty catalog, the
resolution step hands the lowercased names to the candidate matcher with
`topN = 5` and surfaces the ranked candidates mapped back to
original-case names; its threshold at both call sites is `78.0`
(`best_match`'s own default parameter is `80.0` but is never used by the
pipeline): it resolves iff the top candidate scores at least `78`, and
the resolved key is an original-case catalog name whose lowercasing is
the matched candidate. -/
theorem resolution_policy_amended (scorer : String → String → ℚ)
    (names : List String) (q : String) (hq : q ≠ "") (hn : names ≠ []) :
    (resolve_query scorer names q).2
      = (fuzzy_candidates scorer q (names.map str_lower) 5).map
          (fun c => names.getD ((names.map str_lower).indexOf c.1) "") ∧
    fuzzy_candidates scorer q (names.map str_lower) 5
      = process_extract scorer q (names.map str_lower) 5 ∧
    ((∃ k, (resolve_query scorer names q).1 = some k) ↔
      (∃ c cs, fuzzy_candidates scorer q (names.map str_lower) 5 = c :: cs ∧
        (78 : ℚ) ≤ c.2)) ∧
    (∀ k, (resolve_query scorer names q).1 = some k →
      k ∈ names ∧
      ∃ c cs, fuzzy_candidates scorer q (names.map str_lower) 5 = c :: cs ∧
        str_lower k = c.1) := by
  have hcases := resolve_query_cases scorer names q
  refine ⟨?_, ?_, ?_, ?_⟩
  · rcases hcases with ⟨hc, hr⟩ | ⟨c, s, rest, hc, hr⟩
    · rw [hr, hc]; rfl
    · rw [hr, hc]
  · unfold fuzzy_candidates
    rw [if_neg]
    push_neg
    exact ⟨hq, by simpa using hn⟩
  · rcases hcases with ⟨hc, hr⟩ | ⟨c, s, rest, hc, hr⟩
    · rw [hr, hc]
      simp
    · rw [hr, hc]
      by_cases hs : (78 : ℚ) ≤ s
      · simp only [if_pos hs]
        constructor
        · intro _
          exact ⟨(c, s), rest, rfl, hs⟩
        · intro _
          exact ⟨names.getD ((names.map str_lower).indexOf c) "", rfl⟩
      · simp only [if_neg hs]
        constructor
        · rintro ⟨k, hk⟩
          simp at hk
        · rintro ⟨c', cs', hc', hs'⟩
          injection hc' with h1 _
          rw [← h1] at hs'
          exact absurd hs' hs
  · intro k hk
    rcases hcases with ⟨hc, hr⟩ | ⟨c, s, rest, hc, hr⟩
    · rw [hr] at hk
      simp at hk
    · rw [hr] at hk
      by_cases hs : (78 : ℚ) ≤ s
      · rw [if_pos hs] at hk
        simp only [Prod.fst] at hk
        have hcmem : ((c, s) : String × ℚ) ∈
            fuzzy_candidates scorer q (names.map str_lower) 5 := by
          rw [hc]; exact List.mem_cons_self _ _
        have hcin : c ∈ names.map str_lower := mem_fuzzy_candidates hcmem
        obtain ⟨hmem, hlow⟩ := getD_indexOf_map str_lower names c hcin
        have hkk : names.getD ((names.map str_lower).indexOf c) "" = k :=
          Option.some_inj.mp hk
        refine ⟨?_, (c, s), rest, hc, ?_⟩
        · rw [← hkk]; exact hmem
        · rw [← hkk]; exact hlow
      · rw [if_neg hs] at hk
        simp at hk

/-- Witness for C1's amended theorem: a one-name catalog and a scorer
that gives it 100. -/
theorem resolution_policy_amended_witness :
    (resolve_query (fun _ _ => (100 : ℚ)) ["Napa"] "napa").2
      = (fuzzy_candidates (fun _ _ => (100 : ℚ)) "napa" (["Napa"].map str_lower) 5).map
          (fun c => ["Napa"].getD ((["Napa"].map str_lower).indexOf c.1) "") ∧
    fuzzy_candidates (fun _ _ => (100 : ℚ)) "napa" (["Napa"].map str_lower) 5
      = process_extract (fun _ _ => (100 : ℚ)) "napa" (["Napa"].map str_lower) 5 ∧
    ((∃ k, (resolve_query (fun _ _ => (100 : ℚ)) ["Napa"] "napa").1 = some k) ↔
      (∃ c cs, fuzzy_candidates (fun _ _ => (100 : ℚ)) "napa" (["Napa"].map str_lower) 5
          = c :: cs ∧ (78 : ℚ) ≤ c.2)) ∧
    (∀ k, (resolve_query (fun _ _ => (100 : ℚ)) ["Napa"] "napa").1 = some k →
      k ∈ ["Napa"] ∧
      ∃ c cs, fuzzy_candidates (fun _ _ => (100 : ℚ)) "napa" (["Napa"].map str_lower) 5
          = c :: cs ∧ str_lower k = c.1) :=
  resolution_policy_amended (fun _ _ => (100 : ℚ)) ["Napa"] "napa"
    (by decide) (by decide)

/-- C1 counterexample to the claim as stated: the threshold's *default*
in `best_match` is `80.0`, not `78.0`.  With a scorer giving the single
choice a score of `79`, a call that relies on the default does not
resolve even though `79 ≥ 78`, while an explicit threshold of `78`
does resolve. -/
theorem best_match_default_is_not_78 :
    (best_match (fun _ _ => (79 : ℚ)) "a" ["b"]).1 = none ∧
    (best_match (fun _ _ => (79 : ℚ)) "a" ["b"] 78).1 = some "b" ∧
    (78 : ℚ) ≤ 79 := by
  refine ⟨?_, ?_, by norm_num⟩ <;> decide

/-! ## C2 and C3: the text normalizer

The development proceeds by showing that both the code's pipeline
(`cleanTextL`) and the specification's description (`spec_normalize`)
equal the common normal form `stripText (canonText (map lowerChar t))`,
and that this normal form is a fixed point of the pipeline. -/

theorem list_length_induction {α : Type} {P : List α → Prop}
    (ind : ∀ l : List α, (∀ m : List α, m.length < l.length → P m) → P l) :
    ∀ l : List α, P l := by
  have H : ∀ (n : Nat) (l : List α), l.length ≤ n → P l := by
    intro n
    induction n with
    | zero =>
      intro l hl
      exact ind l (fun m hm => absurd (Nat.lt_of_lt_of_le hm hl) (Nat.not_lt_zero _))
    | succ k ih =>
      intro l hl
      exact ind l (fun m hm => ih m (by omega))
  exact fun l => H l.length l (le_refl _)

theorem subDisallowed_cons (c : Char) (cs : List Char) :
    subDisallowed (c :: cs) =
      if inSubClass c then c :: subDisallowed cs
      else ' ' :: subDisallowed (cs.dropWhile (fun d => !inSubClass d)) := by
  simp [subDisallowed]

theorem collapseWs_cons (c : Char) (cs : List Char) :
    collapseWs (c :: cs) =
      if isWsChar c then ' ' :: collapseWs (cs.dropWhile (fun d => isWsChar d))
      else c :: collapseWs cs := by
  simp [collapseWs]

theorem canonText_cons (c : Char) (cs : List Char) :
    canonText (c :: cs) =
      if keptChar c then c :: canonText cs
      else ' ' :: canonText (cs.dropWhile (fun d => !keptChar d)) := by
  simp [canonText]

theorem canonText_nil : canonText [] = [] := by simp [canonText]

theorem subDisallowed_nil : subDisallowed [] = [] := by simp [subDisallowed]

theorem collapseWs_nil : collapseWs [] = [] := by simp [collapseWs]

theorem ws_not_kept {c : Char} (h : isWsChar c = true) : keptChar c = false := by
  simp only [isWsChar, Bool.or_eq_true, beq_iff_eq] at h
  rcases h with ((((rfl | rfl) | rfl) | rfl) | rfl) | rfl <;> decide

theorem kept_not_ws {c : Char} (h : keptChar c = true) : isWsChar c = false := by
  cases hw : isWsChar c with
  | false => rfl
  | true => rw [ws_not_kept hw] at h; exact absurd h (by simp)

theorem ws_imp_not_kept : ∀ c : Char, isWsChar c = true → (!keptChar c) = true := by
  intro c h
  rw [ws_not_kept h]
  rfl

theorem not_sub_imp_not_kept : ∀ c : Char, (!inSubClass c) = true → (!keptChar c) = true := by
  intro c h
  simp only [Bool.not_eq_true', inSubClass, Bool.or_eq_false_iff] at h
  simp [h.1]

theorem upperLower_not_ws :
    ∀ p ∈ upperLower, isWsChar p.1 = false ∧ isWsChar p.2 = false := by decide

theorem upperLower_not_normal :
    ∀ p ∈ upperLower, keptChar p.1 = false ∧ p.1 ≠ ' ' := by decide

theorem isWs_lowerChar (c : Char) : isWsChar (lowerChar c) = isWsChar c := by
  unfold lowerChar
  cases hf : upperLower.find? (fun p => p.1 == c) with
  | none => rfl
  | some p =>
    have hc' := List.find?_some (p := fun q : Char × Char => q.1 == c) hf
    have hc : p.1 = c := eq_of_beq (by simpa using hc')
    obtain ⟨h1, h2⟩ := upperLower_not_ws p (List.mem_of_find?_eq_some hf)
    rw [← hc, h1, h2]

theorem lowerChar_eq_self {c : Char} (h : keptChar c = true ∨ c = ' ') :
    lowerChar c = c := by
  unfold lowerChar
  cases hf : upperLower.find? (fun p => p.1 == c) with
  | none => rfl
  | some p =>
    have hc' := List.find?_some (p := fun q : Char × Char => q.1 == c) hf
    have hc : p.1 = c := eq_of_beq (by simpa using hc')
    obtain ⟨h1, h2⟩ := upperLower_not_normal p (List.mem_of_find?_eq_some hf)
    rcases h with h | h
    · rw [hc, h] at h1
      exact absurd h1 (by simp)
    · exact absurd (hc.trans h) h2

theorem dropWhile_dropWhile_of_imp {α : Type} {p q : α → Bool}
    (h : ∀ a, q a = true → p a = true) :
    ∀ l : List α, List.dropWhile p (List.dropWhile q l) = List.dropWhile p l := by
  intro l
  induction l with
  | nil => rfl
  | cons a as ih =>
    cases hq : q a with
    | true =>
      rw [List.dropWhile_cons_of_pos hq, ih, List.dropWhile_cons_of_pos (h a hq)]
    | false =>
      rw [List.dropWhile_cons_of_neg (by simp [hq])]

theorem rstrip_decomp (x : List Char) :
    x = rstripText x ++ ((x.reverse.takeWhile (fun c => isWsChar c)).reverse) := by
  unfold rstripText
  conv_lhs => rw [← List.reverse_reverse x,
    ← List.takeWhile_append_dropWhile (p := fun c => isWsChar c) (l := x.reverse)]
  rw [List.reverse_append]

theorem rstrip_append_ws (l : List Char) (w : Char) (hw : isWsChar w = true) :
    rstripText (l ++ [w]) = rstripText l := by
  unfold rstripText
  rw [List.reverse_append]
  show ((w :: l.reverse).dropWhile (fun c => isWsChar c)).reverse = _
  rw [List.dropWhile_cons_of_pos hw]

theorem stripText_ws_cons (w : Char) (l : List Char) (hw : isWsChar w = true) :
    stripText (w :: l) = stripText l := by
  unfold stripText lstripText
  rw [List.dropWhile_cons_of_pos hw]

theorem stripText_append_ws (l : List Char) (w : Char) (hw : isWsChar w = true) :
    stripText (l ++ [w]) = stripText l := by
  unfold stripText lstripText
  rw [List.dropWhile_append]
  split
  · rename_i hemp
    rw [List.dropWhile_cons_of_pos hw, List.dropWhile_nil]
    rw [List.isEmpty_iff] at hemp
    rw [hemp]
  · exact rstrip_append_ws _ w hw

theorem isWs_repl (d : Char) :
    isWsChar (if allowedSpecChar d then d else ' ') = !keptChar d := by
  by_cases hk : keptChar d = true
  · rw [if_pos (by simp [allowedSpecChar, hk]), kept_not_ws hk, hk]
    rfl
  · have hk' : keptChar d = false := by simpa using hk
    by_cases hsp : allowedSpecChar d = true
    · have hd : (d == ' ') = true := by
        simpa [allowedSpecChar, hk'] using hsp
      rw [if_pos hsp, eq_of_beq hd]
      decide
    · rw [if_neg hsp, hk']
      decide

theorem collapse_map_repl :
    ∀ l : List Char,
      collapseWs (l.map (fun c => if allowedSpecChar c then c else ' '))
        = canonText l := by
  refine list_length_induction (fun l ih => ?_)
  cases l with
  | nil => simp [collapseWs, canonText]
  | cons c cs =>
    rw [List.map_cons]
    by_cases hk : keptChar c = true
    · rw [if_pos (show allowedSpecChar c = true by simp [allowedSpecChar, hk])]
      rw [collapseWs_cons, if_neg (by simp [kept_not_ws hk]),
        canonText_cons, if_pos hk]
      rw [ih cs (by simp)]
    · have hk' : keptChar c = false := by simpa using hk
      have hrep : (if allowedSpecChar c then c else ' ') = ' ' := by
        by_cases hsp : allowedSpecChar c = true
        · have hd : (c == ' ') = true := by
            simpa [allowedSpecChar, hk'] using hsp
          rw [if_pos hsp, eq_of_beq hd]
        · rw [if_neg hsp]
      rw [hrep, collapseWs_cons, if_pos (by decide),
        canonText_cons, if_neg (by simp [hk'])]
      have hdw : (cs.map (fun c => if allowedSpecChar c then c else ' ')).dropWhile
            (fun d => isWsChar d)
          = (cs.dropWhile (fun d => !keptChar d)).map
            (fun c => if allowedSpecChar c then c else ' ') := by
        rw [List.dropWhile_map]
        have hfun : ((fun d => isWsChar d) ∘ fun c => if allowedSpecChar c then c else ' ')
            = (fun d => !keptChar d) := funext (fun d => isWs_repl d)
        rw [hfun]
      rw [hdw, ih (cs.dropWhile (fun d => !keptChar d))
        (by simpa using Nat.lt_succ_of_le (List.dropWhile_sublist _).length_le)]

theorem collapse_sub_and_ws :
    ∀ l : List Char,
      collapseWs (subDisallowed l) = canonText l ∧
      collapseWs ((subDisallowed l).dropWhile (fun c => isWsChar c))
        = canonText (l.dropWhile (fun d => !keptChar d)) := by
  refine list_length_induction (fun l ih => ?_)
  cases l with
  | nil => constructor <;> simp [collapseWs, subDisallowed, canonText]
  | cons c cs =>
    have hlen : cs.length < (c :: cs).length := by simp
    have hlend : (cs.dropWhile (fun d => !inSubClass d)).length < (c :: cs).length := by
      simpa using Nat.lt_succ_of_le (List.dropWhile_sublist _).length_le
    by_cases hk : keptChar c = true
    · -- a kept character: in the sub class, not whitespace
      have hsub : inSubClass c = true := by simp [inSubClass, hk]
      have hws : isWsChar c = false := kept_not_ws hk
      constructor
      · rw [subDisallowed_cons, if_pos hsub, collapseWs_cons, if_neg (by simp [hws]),
          canonText_cons, if_pos hk, (ih cs hlen).1]
      · rw [subDisallowed_cons, if_pos hsub,
          List.dropWhile_cons_of_neg (by simp [hws]),
          collapseWs_cons, if_neg (by simp [hws]),
          List.dropWhile_cons_of_neg (by simp [hk]),
          canonText_cons, if_pos hk, (ih cs hlen).1]
    · have hk' : keptChar c = false := by simpa using hk
      by_cases hws : isWsChar c = true
      · -- whitespace: kept by the sub but collapsed afterwards
        have hsub : inSubClass c = true := by simp [inSubClass, hws]
        constructor
        · rw [subDisallowed_cons, if_pos hsub, collapseWs_cons, if_pos hws,
            canonText_cons, if_neg (by simp [hk']), (ih cs hlen).2]
        · rw [subDisallowed_cons, if_pos hsub,
            List.dropWhile_cons_of_pos (by simp [hws]),
            List.dropWhile_cons_of_pos (by simp [hk']), (ih cs hlen).2]
      · -- outside the sub class: replaced by a space by the sub itself
        have hws' : isWsChar c = false := by simpa using hws
        have hsub : inSubClass c = false := by simp [inSubClass, hk', hws']
        have hdw : (cs.dropWhile (fun d => !inSubClass d)).dropWhile
              (fun d => !keptChar d) = cs.dropWhile (fun d => !keptChar d) :=
          dropWhile_dropWhile_of_imp not_sub_imp_not_kept cs
        constructor
        · rw [subDisallowed_cons, if_neg (by simp [hsub]), collapseWs_cons,
            if_pos (by decide), canonText_cons, if_neg (by simp [hk']),
            (ih _ hlend).2, hdw]
        · rw [subDisallowed_cons, if_neg (by simp [hsub]),
            List.dropWhile_cons_of_pos (by decide),
            List.dropWhile_cons_of_pos (by simp [hk']),
            (ih _ hlend).2, hdw]

theorem collapse_sub (l : List Char) :
    collapseWs (subDisallowed l) = canonText l :=
  (collapse_sub_and_ws l).1

theorem map_lower_lstrip (t : List Char) :
    (lstripText t).map lowerChar = lstripText (t.map lowerChar) := by
  unfold lstripText
  rw [List.dropWhile_map]
  have hfun : ((fun c => isWsChar c) ∘ lowerChar) = (fun c => isWsChar c) :=
    funext (fun c => isWs_lowerChar c)
  rw [hfun]

theorem map_lower_rstrip (t : List Char) :
    (rstripText t).map lowerChar = rstripText (t.map lowerChar) := by
  unfold rstripText
  rw [← List.map_reverse, List.dropWhile_map]
  have hfun : ((fun c => isWsChar c) ∘ lowerChar) = (fun c => isWsChar c) :=
    funext (fun c => isWs_lowerChar c)
  rw [hfun, List.map_reverse]

theorem map_lower_strip (t : List Char) :
    (stripText t).map lowerChar = stripText (t.map lowerChar) := by
  unfold stripText
  rw [map_lower_rstrip, map_lower_lstrip]

theorem strip_canon_dropFront (u : List Char) :
    stripText (canonText u)
      = stripText (canonText (u.dropWhile (fun c => !keptChar c))) := by
  cases u with
  | nil => rfl
  | cons c u' =>
    by_cases hk : keptChar c = true
    · rw [List.dropWhile_cons_of_neg (by simp [hk])]
    · have hk' : keptChar c = false := by simpa using hk
      rw [List.dropWhile_cons_of_pos (by simp [hk']),
        canonText_cons, if_neg (by simp [hk']),
        stripText_ws_cons ' ' _ (by decide)]

theorem strip_canon_lstrip (u : List Char) :
    stripText (canonText (lstripText u)) = stripText (canonText u) := by
  rw [strip_canon_dropFront (lstripText u), strip_canon_dropFront u]
  unfold lstripText
  rw [dropWhile_dropWhile_of_imp ws_imp_not_kept u]

theorem canon_all_nonkept (r : List Char) (h : ∀ x ∈ r, keptChar x = false)
    (hne : r ≠ []) : canonText r = [' '] := by
  cases r with
  | nil => exact absurd rfl hne
  | cons c rs =>
    rw [canonText_cons, if_neg (by simp [h c (List.mem_cons_self _ _)])]
    have hdw : rs.dropWhile (fun d => !keptChar d) = [] := by
      rw [List.dropWhile_eq_nil_iff]
      intro x hx
      simp [h x (List.mem_cons_of_mem _ hx)]
    rw [hdw, canonText_nil]

theorem canon_append_trailing :
    ∀ v r : List Char, v ≠ [] →
    (∀ x, v.getLast? = some x → keptChar x = true) →
    (∀ x ∈ r, keptChar x = false) → r ≠ [] →
    canonText (v ++ r) = canonText v ++ [' '] := by
  refine list_length_induction (fun v ih => ?_)
  intro r hvne hvlast hr hrne
  cases v with
  | nil => exact absurd rfl hvne
  | cons c v' =>
    cases v' with
    | nil =>
      have hc : keptChar c = true := hvlast c rfl
      rw [List.cons_append, List.nil_append, canonText_cons, if_pos hc,
        canon_all_nonkept r hr hrne, canonText_cons, if_pos hc, canonText_nil]
      rfl
    | cons d v'' =>
      have hlast : ∀ x, (d :: v'').getLast? = some x → keptChar x = true := by
        intro x hx
        exact hvlast x (by rw [List.getLast?_cons_cons]; exact hx)
      by_cases hk : keptChar c = true
      · rw [List.cons_append, canonText_cons c (d :: v'' ++ r),
          canonText_cons c (d :: v''), if_pos hk, if_pos hk,
          ih (d :: v'') (by simp) r (by simp) hlast hr hrne, List.cons_append]
      · have hk' : keptChar c = false := by simpa using hk
        -- the tail `d :: v''` contains a kept character (its last one)
        have hkL : keptChar ((d :: v'').getLast (by simp)) = true :=
          hlast _ (List.getLast?_eq_getLast _ (by simp))
        have hwne : (d :: v'').dropWhile (fun x => !keptChar x) ≠ [] := by
          intro hnil
          rw [List.dropWhile_eq_nil_iff] at hnil
          have hx := hnil _ (List.getLast_mem (by simp))
          rw [hkL] at hx
          exact absurd hx (by simp)
        have hdwapp : (d :: v'' ++ r).dropWhile (fun x => !keptChar x)
            = (d :: v'').dropWhile (fun x => !keptChar x) ++ r := by
          rw [List.dropWhile_append]
          rw [if_neg (by simpa using hwne)]
        have hwlast : ∀ x, ((d :: v'').dropWhile (fun x => !keptChar x)).getLast? = some x →
            keptChar x = true := by
          intro x hx
          have hdec := List.takeWhile_append_dropWhile
            (p := fun x => !keptChar x) (l := d :: v'')
          have : (d :: v'').getLast? = some x := by
            rw [← hdec, List.getLast?_append, hx]
            rfl
          exact hlast x this
        rw [List.cons_append, canonText_cons, if_neg (by simp [hk']),
          canonText_cons, if_neg (by simp [hk']), hdwapp,
          ih ((d :: v'').dropWhile (fun x => !keptChar x))
            (by simpa using Nat.lt_succ_of_le (List.dropWhile_sublist _).length_le)
            r hwne hwlast hr hrne, List.cons_append]

theorem strip_canon_dropBack (u : List Char) :
    stripText (canonText u)
      = stripText (canonText ((u.reverse.dropWhile (fun c => !keptChar c)).reverse)) := by
  have hu : u = (u.reverse.dropWhile (fun c => !keptChar c)).reverse
      ++ (u.reverse.takeWhile (fun c => !keptChar c)).reverse := by
    conv_lhs => rw [← List.reverse_reverse u,
      ← List.takeWhile_append_dropWhile (p := fun c => !keptChar c) (l := u.reverse)]
    rw [List.reverse_append]
  have hr : ∀ x ∈ (u.reverse.takeWhile (fun c => !keptChar c)).reverse,
      keptChar x = false := by
    intro x hx
    rw [List.mem_reverse] at hx
    have := List.mem_takeWhile_imp hx
    simpa using this
  rcases hrnil : (u.reverse.takeWhile (fun c => !keptChar c)).reverse with _ | ⟨a, as⟩
  · conv_lhs => rw [hu, hrnil, List.append_nil]
  · rcases hvnil : (u.reverse.dropWhile (fun c => !keptChar c)).reverse with _ | ⟨b, bs⟩
    · -- every character of u is outside the kept class
      conv_lhs => rw [hu, hvnil, List.nil_append]
      rw [canon_all_nonkept _ hr (by rw [hrnil]; simp), canonText_nil]
      decide
    · -- u ends with a run of non-kept characters after its last kept one
      have hvlast : ∀ x, (b :: bs).getLast? = some x → keptChar x = true := by
        intro x hx
        rw [← hvnil] at hx
        rw [List.getLast?_reverse] at hx
        have hhead := List.head?_dropWhile_not (fun c => !keptChar c) u.reverse
        rw [hx] at hhead
        simpa using hhead
      conv_lhs => rw [hu, hvnil]
      rw [canon_append_trailing (b :: bs) _ (by simp) hvlast hr (by rw [hrnil]; simp),
        stripText_append_ws _ ' ' (by decide)]

theorem strip_canon_rstrip (u : List Char) :
    stripText (canonText (rstripText u)) = stripText (canonText u) := by
  rw [strip_canon_dropBack (rstripText u), strip_canon_dropBack u]
  unfold rstripText
  rw [List.reverse_reverse, dropWhile_dropWhile_of_imp ws_imp_not_kept u.reverse]

/-- The code's normalizer in normal form: lowercase, then replace each
maximal non-token run by one space, then strip. -/
theorem cleanTextL_eq (t : List Char) :
    cleanTextL t = stripText (canonText (t.map lowerChar)) := by
  show stripText (collapseWs (subDisallowed ((stripText t).map lowerChar))) = _
  rw [collapse_sub, map_lower_strip]
  show stripText (canonText (rstripText (lstripText (t.map lowerChar)))) = _
  rw [strip_canon_rstrip, strip_canon_lstrip]

/-- The specification's described normalizer reaches the same normal
form. -/
theorem spec_normalize_eq (t : List Char) :
    spec_normalize t = stripText (canonText (t.map lowerChar)) := by
  show stripText (collapseWs ((t.map lowerChar).map
    (fun c => if allowedSpecChar c then c else ' '))) = _
  rw [collapse_map_repl]

theorem canon_chars :
    ∀ u : List Char, ∀ c ∈ canonText u, keptChar c = true ∨ c = ' ' := by
  refine list_length_induction (fun u ih => ?_)
  intro c hc
  cases u with
  | nil => rw [canonText_nil] at hc; simp at hc
  | cons d cs =>
    rw [canonText_cons] at hc
    split_ifs at hc with hd
    · rcases List.mem_cons.mp hc with rfl | hc'
      · exact Or.inl hd
      · exact ih cs (by simp) c hc'
    · rcases List.mem_cons.mp hc with rfl | hc'
      · exact Or.inr rfl
      · exact ih (cs.dropWhile (fun d => !keptChar d))
          (by simpa using Nat.lt_succ_of_le (List.dropWhile_sublist _).length_le) c hc'

theorem mem_stripText {c : Char} {l : List Char} (h : c ∈ stripText l) : c ∈ l := by
  unfold stripText rstripText lstripText at h
  rw [List.mem_reverse] at h
  have h2 := (List.dropWhile_sublist (fun c => isWsChar c)).subset h
  rw [List.mem_reverse] at h2
  exact (List.dropWhile_sublist (fun c => isWsChar c)).subset h2

theorem canon_dw_head (cs : List Char) :
    canonText (cs.dropWhile (fun d => !keptChar d)) = [] ∨
    ∃ d rest, canonText (cs.dropWhile (fun d => !keptChar d)) = d :: rest ∧
      keptChar d = true := by
  cases hdw : cs.dropWhile (fun d => !keptChar d) with
  | nil => left; rw [canonText_nil]
  | cons d ds =>
    right
    have hhead := List.head?_dropWhile_not (fun d => !keptChar d) cs
    rw [hdw] at hhead
    have hd : keptChar d = true := by simpa using hhead
    exact ⟨d, canonText ds, by rw [canonText_cons, if_pos hd], hd⟩

theorem canon_chain :
    ∀ u : List Char,
      List.Chain' (fun a b => a = ' ' → keptChar b = true) (canonText u) := by
  refine list_length_induction (fun u ih => ?_)
  cases u with
  | nil => rw [canonText_nil]; exact List.chain'_nil
  | cons c cs =>
    rw [canonText_cons]
    split_ifs with hc
    · rw [List.chain'_cons']
      refine ⟨fun y _ hceq => ?_, ih cs (by simp)⟩
      rw [hceq] at hc
      exact absurd hc (by decide)
    · rw [List.chain'_cons']
      constructor
      · intro y hy _
        rcases canon_dw_head cs with hnil | ⟨d, rest, hcons, hd⟩
        · rw [hnil] at hy; simp at hy
        · rw [hcons] at hy
          simp only [List.head?_cons, Option.mem_def, Option.some_inj] at hy
          rw [hy] at hd
          exact hd
      · exact ih (cs.dropWhile (fun d => !keptChar d))
          (by simpa using Nat.lt_succ_of_le (List.dropWhile_sublist _).length_le)

theorem chain'_stripText {R : Char → Char → Prop} {l : List Char}
    (h : List.Chain' R l) : List.Chain' R (stripText l) := by
  have h1 : List.Chain' R (lstripText l) := by
    have hdec := List.takeWhile_append_dropWhile (p := fun c => isWsChar c) (l := l)
    rw [← hdec] at h
    exact (List.chain'_append.mp h).2.1
  have hdec2 := rstrip_decomp (lstripText l)
  rw [hdec2] at h1
  exact (List.chain'_append.mp h1).1

theorem stripText_head_not_ws (l : List Char) (c : Char)
    (h : (stripText l).head? = some c) : isWsChar c = false := by
  have hx : (lstripText l).head? = some c := by
    cases hz : stripText l with
    | nil => rw [hz] at h; exact absurd h (by simp)
    | cons a zs =>
      rw [hz] at h
      have hac : a = c := by simpa using h
      have hdec := rstrip_decomp (lstripText l)
      have hsz : stripText l = rstripText (lstripText l) := rfl
      rw [hdec, ← hsz, hz, hac]
      rfl
  have hhead := List.head?_dropWhile_not (fun c => isWsChar c) l
  unfold lstripText at hx
  rw [hx] at hhead
  simpa using hhead

theorem stripText_getLast_not_ws (l : List Char) (c : Char)
    (h : (stripText l).getLast? = some c) : isWsChar c = false := by
  have hrev : (stripText l).reverse.head? = some c := by
    rw [List.head?_reverse]
    exact h
  have hform : (stripText l).reverse
      = (lstripText l).reverse.dropWhile (fun c => isWsChar c) := by
    show (rstripText (lstripText l)).reverse = _
    unfold rstripText
    rw [List.reverse_reverse]
  rw [hform] at hrev
  have hhead := List.head?_dropWhile_not (fun c => isWsChar c) (lstripText l).reverse
  rw [hrev] at hhead
  simpa using hhead

theorem map_eq_self_of_mem {f : Char → Char} :
    ∀ l : List Char, (∀ c ∈ l, f c = c) → l.map f = l := by
  intro l
  induction l with
  | nil => intro _; rfl
  | cons c cs ih =>
    intro h
    rw [List.map_cons, h c (List.mem_cons_self _ _),
      ih (fun x hx => h x (List.mem_cons_of_mem _ hx))]

theorem canon_fix : ∀ z : List Char,
    (∀ c ∈ z, keptChar c = true ∨ c = ' ') →
    List.Chain' (fun a b => a = ' ' → keptChar b = true) z →
    canonText z = z := by
  intro z
  induction z with
  | nil => intro _ _; exact canonText_nil
  | cons c cs ih =>
    intro h1 h2
    rcases h1 c (List.mem_cons_self _ _) with hk | hsp
    · rw [canonText_cons, if_pos hk,
        ih (fun x hx => h1 x (List.mem_cons_of_mem _ hx)) h2.tail]
    · subst hsp
      rw [canonText_cons, if_neg (by decide)]
      cases cs with
      | nil => rw [List.dropWhile_nil, canonText_nil]
      | cons d ds =>
        have hd : keptChar d = true := (List.chain'_cons'.mp h2).1 d rfl rfl
        rw [List.dropWhile_cons_of_neg (by simp [hd]),
          ih (fun x hx => h1 x (List.mem_cons_of_mem _ hx)) h2.tail]

theorem stripText_fix (l : List Char)
    (hh : ∀ c, l.head? = some c → isWsChar c = false)
    (hl : ∀ c, l.getLast? = some c → isWsChar c = false) :
    stripText l = l := by
  have h1 : lstripText l = l := by
    cases l with
    | nil => rfl
    | cons a as =>
      exact List.dropWhile_cons_of_neg (by simp [hh a rfl])
  show rstripText (lstripText l) = l
  rw [h1]
  unfold rstripText
  cases hrev : l.reverse with
  | nil => rw [List.dropWhile_nil, ← hrev, List.reverse_reverse]
  | cons b bs =>
    have hb : isWsChar b = false := by
      apply hl
      rw [← List.head?_reverse, hrev]
      rfl
    rw [List.dropWhile_cons_of_neg (by simp [hb]), ← hrev, List.reverse_reverse]

theorem cleanTextL_idem (t : List Char) :
    cleanTextL (cleanTextL t) = cleanTextL t := by
  rw [cleanTextL_eq t]
  have hchars : ∀ c ∈ stripText (canonText (t.map lowerChar)),
      keptChar c = true ∨ c = ' ' :=
    fun c hc => canon_chars _ c (mem_stripText hc)
  have hchain := chain'_stripText (canon_chain (t.map lowerChar))
  have hmap : (stripText (canonText (t.map lowerChar))).map lowerChar
      = stripText (canonText (t.map lowerChar)) :=
    map_eq_self_of_mem _ (fun c hc => lowerChar_eq_self (hchars c hc))
  rw [cleanTextL_eq (stripText (canonText (t.map lowerChar))), hmap,
    canon_fix _ hchars hchain]
  exact stripText_fix _ (stripText_head_not_ws _) (stripText_getLast_not_ws _)

/-- C2: the text normalizer is total and deterministic by construction
(a Lean function on all strings) and idempotent:
`clean_recognizer_text (clean_recognizer_text s) = clean_recognizer_text s`
for every string, including the empty string and strings of only
disallowed characters. -/
theorem clean_recognizer_text_idempotent (s : String) :
    clean_recognizer_text (clean_recognizer_text s) = clean_recognizer_text s := by
  show String.mk (cleanTextL (String.mk (cleanTextL s.data)).data)
      = String.mk (cleanTextL s.data)
  exact congrArg String.mk (cleanTextL_idem s.data)

theorem allowedSpec_not_upper {c : Char} (h : allowedSpecChar c = true) :
    ¬('A' ≤ c ∧ c ≤ 'Z') := by
  rintro ⟨h1, h2⟩
  simp only [allowedSpecChar, keptChar, isLowerAlpha, isDigitChar,
    Bool.or_eq_true, Bool.and_eq_true, beq_iff_eq, decide_eq_true_eq] at h
  rcases h with ((⟨ha, _⟩ | ⟨_, hb⟩) | rfl) | rfl
  · exact absurd (le_trans ha h2) (by decide)
  · exact absurd (le_trans h1 hb) (by decide)
  · exact absurd h1 (by decide)
  · exact absurd h1 (by decide)

/-- C3: every normalized output is lowercase (no basic latin capital
survives), contains only ASCII letters, digits, hyphen and space, has no
two consecutive spaces and no leading or trailing whitespace; and the
whole function extensionally equals the specification's per-character
description (lowercase, replace every character outside `[a-z0-9\- ]`
by a space, collapse whitespace runs, trim). -/
theorem clean_recognizer_text_shape (s : String) :
    (∀ c ∈ (clean_recognizer_text s).data, allowedSpecChar c = true) ∧
    (∀ c ∈ (clean_recognizer_text s).data, ¬('A' ≤ c ∧ c ≤ 'Z')) ∧
    List.Chain' (fun a b => ¬(a = ' ' ∧ b = ' ')) (clean_recognizer_text s).data ∧
    (∀ c, (clean_recognizer_text s).data.head? = some c → isWsChar c = false) ∧
    (∀ c, (clean_recognizer_text s).data.getLast? = some c → isWsChar c = false) ∧
    clean_recognizer_text s = spec_normalize_str s := by
  have hdata : (clean_recognizer_text s).data
      = stripText (canonText (s.data.map lowerChar)) := cleanTextL_eq s.data
  have hchars : ∀ c ∈ (clean_recognizer_text s).data, keptChar c = true ∨ c = ' ' := by
    rw [hdata]
    exact fun c hc => canon_chars _ c (mem_stripText hc)
  have hallowed : ∀ c ∈ (clean_recognizer_text s).data, allowedSpecChar c = true := by
    intro c hc
    rcases hchars c hc with hk | rfl
    · simp [allowedSpecChar, hk]
    · simp [allowedSpecChar]
  refine ⟨hallowed, ?_, ?_, ?_, ?_, ?_⟩
  · exact fun c hc => allowedSpec_not_upper (hallowed c hc)
  · rw [hdata]
    refine List.Chain'.imp ?_ (chain'_stripText (canon_chain _))
    rintro a b hab ⟨ha, hb⟩
    have := hab ha
    rw [hb] at this
    exact absurd this (by decide)
  · rw [hdata]
    exact stripText_head_not_ws _
  · rw [hdata]
    exact stripText_getLast_not_ws _
  · show String.mk (cleanTextL s.data) = String.mk (spec_normalize s.data)
    exact congrArg String.mk
      ((cleanTextL_eq s.data).trans (spec_normalize_eq s.data).symm)

/-- Witness for C3 at a concrete input. -/
theorem clean_recognizer_text_shape_witness :
    clean_recognizer_text " Hello, World " = spec_normalize_str " Hello, World " :=
  (clean_recognizer_text_shape " Hello, World ").2.2.2.2.2

end VoiceApp
